import Mathlib

/-!
Verification development for the env-blur VS Code extension
(line parser, pattern matcher, mask generator, reveal-state machine).

The TypeScript sources are embedded shallowly: strings are `List Char`,
JavaScript `Map`s are association lists preserving insertion order, and
`setTimeout`/`clearTimeout` are modelled by a pool of live timer
references carrying fresh numeric ids.
-/

namespace EnvBlur

/-! ## Basic string operations (JS semantics over `List Char`) -/

/-- Whitespace as recognised by `String.prototype.trim` (the ASCII part,
which is all the sources ever feed it). -/
def isWS (c : Char) : Bool :=
  c = ' ' || c = '\t' || c = '\n' || c = '\r' || c = '\x0b' || c = '\x0c'

/-- `s.trimStart()`. -/
def trimLeft (l : List Char) : List Char := l.dropWhile isWS

/-- `s.trimEnd()`. -/
def trimRight (l : List Char) : List Char := (l.reverse.dropWhile isWS).reverse

/-- `s.trim()`. -/
def trim (l : List Char) : List Char := trimRight (trimLeft l)

/-- `hay.startsWith(needle)`: the first argument is the candidate prefix. -/
def startsWithL : List Char → List Char → Bool
  | [], _ => true
  | _ :: _, [] => false
  | p :: ps, c :: cs => p = c && startsWithL ps cs

/-- `hay.endsWith(suffix)`. -/
def endsWithL (suffix hay : List Char) : Bool :=
  startsWithL suffix.reverse hay.reverse

/-- `s.indexOf(c)` for a single character, `none` instead of `-1`. -/
def indexOfC (c : Char) : List Char → Option Nat
  | [] => none
  | x :: xs => if x = c then some 0 else (indexOfC c xs).map (· + 1)

/-- `s.indexOf(c, i)`: first occurrence of `c` at index `≥ i`. -/
def indexOfCFrom (c : Char) (i : Nat) (l : List Char) : Option Nat :=
  (indexOfC c (l.drop i)).map (· + i)

/-- `hay.indexOf(needle)` for a substring needle, `none` instead of `-1`. -/
def indexOfS (needle : List Char) : List Char → Option Nat
  | [] => if needle.isEmpty then some 0 else none
  | x :: xs =>
    if startsWithL needle (x :: xs) then some 0
    else (indexOfS needle xs).map (· + 1)

/-! ## LineParser (`envFileParser.ts`, two shipped revisions) -/

/-- `EnvVariable` interface of `envFileParser.ts`. -/
structure EnvVariable where
  line : Nat
  key : List Char
  value : List Char
  keyStart : Nat
  keyEnd : Nat
  valueStart : Nat
  valueEnd : Nat
deriving DecidableEq, Repr

/-- First char of the key regex `^[a-zA-Z_][a-zA-Z0-9_]*$`. -/
def isKeyStartChar (c : Char) : Bool := c.isAlpha || c = '_'

/-- Later chars of the key regex `^[a-zA-Z_][a-zA-Z0-9_]*$`. -/
def isKeyChar (c : Char) : Bool := c.isAlphanum || c = '_'

/-- `isValidKey` of `envFileParser.ts`: test against `^[a-zA-Z_][a-zA-Z0-9_]*$`. -/
def isValidKey : List Char → Bool
  | [] => false
  | c :: cs => isKeyStartChar c && cs.all isKeyChar

/-- `parseLine` from the newer parser revision (`src/unnamed/part_003`,
lines 102–151): `valueEnd = valueStartIndex + value.length`.
The two `none` fall-backs for `indexOf` returning `-1` are unreachable
(the validated key is a non-empty contiguous substring of the line);
the source computes with `-1` there without branching. -/
def parseLine_v3 (lineText : List Char) (lineNumber : Nat) : Option EnvVariable :=
  let text := trim lineText
  if text.isEmpty || startsWithL "#".toList text || startsWithL "//".toList text then
    none
  else if startsWithL "export ".toList text then
    none
  else
    match indexOfC '=' text with
    | none => none
    | some equalsIndex =>
      let key := trim (text.take equalsIndex)
      let value := text.drop (equalsIndex + 1)
      if !isValidKey key then none
      else if value.length = 0 then none
      else
        match indexOfS key lineText with
        | none => none
        | some keyStartIndex =>
          match indexOfCFrom '=' keyStartIndex lineText with
          | none => none
          | some equalsInOriginal =>
            some { line := lineNumber
                   key := key
                   value := value
                   keyStart := keyStartIndex
                   keyEnd := keyStartIndex + key.length
                   valueStart := equalsInOriginal + 1
                   valueEnd := equalsInOriginal + 1 + value.length }

/-- `parseLine` from the older parser revision (`src/unnamed/part_002`,
lines 29–78). Identical to `parseLine_v3` except that
`valueEndIndex = originalText.length`. -/
def parseLine_v2 (lineText : List Char) (lineNumber : Nat) : Option EnvVariable :=
  let text := trim lineText
  if text.isEmpty || startsWithL "#".toList text || startsWithL "//".toList text then
    none
  else if startsWithL "export ".toList text then
    none
  else
    match indexOfC '=' text with
    | none => none
    | some equalsIndex =>
      let key := trim (text.take equalsIndex)
      let value := text.drop (equalsIndex + 1)
      if !isValidKey key then none
      else if value.length = 0 then none
      else
        match indexOfS key lineText with
        | none => none
        | some keyStartIndex =>
          match indexOfCFrom '=' keyStartIndex lineText with
          | none => none
          | some _equalsInOriginal =>
            some { line := lineNumber
                   key := key
                   value := value
                   keyStart := keyStartIndex
                   keyEnd := keyStartIndex + key.length
                   valueStart := _equalsInOriginal + 1
                   valueEnd := lineText.length }

/-- `parseDocument`: loop over all lines, keep the non-`null` parses
(newer parser revision). -/
def parseDocument_v3 (lines : List (List Char)) : List EnvVariable :=
  lines.enum.filterMap fun p => parseLine_v3 p.2 p.1

/-- The rejection conditions C3 lists, on a line's trimmed text. -/
def rejectCond (lineText : List Char) : Prop :=
  trim lineText = []
  ∨ startsWithL "#".toList (trim lineText) = true
  ∨ startsWithL "//".toList (trim lineText) = true
  ∨ startsWithL "export ".toList (trim lineText) = true
  ∨ indexOfC '=' (trim lineText) = none
  ∨ ∃ eq, indexOfC '=' (trim lineText) = some eq ∧
      ((trim lineText).drop (eq + 1) = []
        ∨ isValidKey (trim ((trim lineText).take eq)) = false)

/-! ## PatternMatcher (`config.ts` `buildRegexCaches` / `envFileMasker.ts`)

The sources turn a glob-like pattern into the JavaScript regex
`"^" + pattern.replace(/\*/g, ".*").replace(/\?/g, ".") + "$"` and call
`RegExp.test`. We embed the regex source as a character list and give
the anchored-matching semantics of the regex fragment that can actually
arise (literals, `.`, postfix `*`); a compiled regex using any other
metacharacter is outside the model and parses to `none`. -/

/-- A regex atom of the compiled fragment: `.` or a literal character. -/
inductive RAtom where
  | rdot
  | rlit (c : Char)
deriving DecidableEq, Repr

/-- An atom, either once or under a postfix Kleene `*`. -/
inductive RPiece where
  | once (a : RAtom)
  | star (a : RAtom)
deriving DecidableEq, Repr

/-- Regex metacharacters whose semantics the model does not cover
('.' and a well-placed '*' are covered and excluded here). -/
def isRegexMeta (c : Char) : Bool :=
  c = '+' || c = '?' || c = '(' || c = ')' || c = '[' || c = ']' ||
  c = '\x7b' || c = '\x7d' || c = '|' || c = '^' || c = '$' || c = '\\'

/-- Parse a compiled regex source into its pieces; `none` on any
construct outside the supported fragment. -/
def parseRegexL : List Char → Option (List RPiece)
  | [] => some []
  | [c] =>
    if isRegexMeta c || c = '*' then none
    else some [.once (if c = '.' then .rdot else .rlit c)]
  | c :: c2 :: rest =>
    if isRegexMeta c || c = '*' then none
    else
      let a : RAtom := if c = '.' then .rdot else .rlit c
      if c2 = '*' then (parseRegexL rest).map (fun ps => .star a :: ps)
      else (parseRegexL (c2 :: rest)).map (fun ps => .once a :: ps)

/-- Does a single character match an atom? -/
def matchAtom : RAtom → Char → Bool
  | .rdot, _ => true
  | .rlit c, x => c = x

/-- `a*` then continuation `k`: consume any run of `a`-matching
characters before handing the rest to `k` (backtracking semantics). -/
def starMatch (a : RAtom) (k : List Char → Bool) : List Char → Bool
  | [] => k []
  | x :: xs => k (x :: xs) || (matchAtom a x && starMatch a k xs)

/-- Anchored matching of a piece list against a whole string: the
semantics of `^…$`-anchored `RegExp.test` for the supported fragment. -/
def matchPieces : List RPiece → List Char → Bool
  | [], s => s.isEmpty
  | .once a :: ps, s =>
    match s with
    | [] => false
    | x :: xs => matchAtom a x && matchPieces ps xs
  | .star a :: ps, s => starMatch a (matchPieces ps) s

/-- `pattern.replace(/\*/g, ".*").replace(/\?/g, ".")`, one glob
character at a time (no glob character produces `*` or `?`, so the two
global replaces factor through single characters). -/
def encodeGlobChar (c : Char) : List Char :=
  if c = '*' then ['.', '*'] else if c = '?' then ['.'] else [c]

/-- Source text of the compiled regex (without the `^`/`$` anchors,
which `matchPieces` builds in by matching the whole string). -/
def compiledRegexOf (pattern : List Char) : List Char :=
  (pattern.map encodeGlobChar).flatten

/-- `new RegExp("^" + … + "$").test(text)` for a wildcard pattern;
`none` when the compiled regex falls outside the modelled fragment. -/
def patternAccepts (pattern text : List Char) : Option Bool :=
  (parseRegexL (compiledRegexOf pattern)).map fun ps => matchPieces ps text

/-- `*` then continuation `k` in the glob reading: try every suffix. -/
def starLoop (k : List Char → Bool) : List Char → Bool
  | [] => k []
  | x :: xs => k (x :: xs) || starLoop k xs

/-- Modelled from the spec: the glob semantics the spec ascribes to a
wildcard pattern — `*` matches any run of characters, `?` any single
character, every other pattern character only itself, anchored to the
whole string. Used to compare against `patternAccepts`. -/
def globMatch : List Char → List Char → Bool
  | [], s => s.isEmpty
  | c :: ps, s =>
    if c = '*' then starLoop (globMatch ps) s
    else
      match s with
      | [] => false
      | x :: xs => (if c = '?' then true else c = x) && globMatch ps xs

/-- Pattern characters for which the compiled regex is faithful to the
glob reading: the wildcards themselves, or anything that is neither a
regex metacharacter nor `.`. -/
def safeGlobChar (c : Char) : Bool :=
  c = '*' || c = '?' || (!isRegexMeta c && !(c = '.'))

/-- The pieces the compiled regex of a glob pattern parses to:
`*` becomes `.*`, `?` becomes `.`, anything else one atom. -/
def piecesOfGlob : List Char → List RPiece
  | [] => []
  | c :: p =>
    (if c = '*' then RPiece.star .rdot
     else if c = '?' then RPiece.once .rdot
     else if c = '.' then RPiece.once .rdot
     else RPiece.once (.rlit c)) :: piecesOfGlob p

/-! ## MaskingConfig (`src/src/config.ts`)

The VS Code `WorkspaceConfiguration` is embedded as a record of the raw
values `config.get` would hand back; `none` in `enabledFilePatterns`
stands for an unset key (so `config.get` returns its default argument).
`fixedMaskLength` is an `Int`: `NaN` is not representable in the integer
model, and behaves in the source exactly like any other value failing
the `length < 5 || length > 100` range check. -/

/-- `MaskingLengthStrategy` of `config.ts`. -/
inductive MaskingLengthStrategy where
  | eb_fixedLength
  | eb_proportionalLength
deriving DecidableEq, Repr

/-- Raw configuration values as fetched from the workspace store. -/
structure MaskingConfigData where
  maskCharacter : List Char
  maskingLengthStrategy : MaskingLengthStrategy
  fixedMaskLength : Int
  autoHideDelay : Nat
  enabledFilePatterns : Option (List (List Char))
  blacklistedFiles : List (List Char)
deriving Repr

/-- `getMaskingCharacter` (`config.ts` lines 112–121): single character
or the default `'•'`. -/
def getMaskingCharacter (cfg : MaskingConfigData) : List Char :=
  if cfg.maskCharacter.length ≠ 1 then ['•'] else cfg.maskCharacter

/-- `getFixedMaskLength` (`src/src/config.ts` lines 139–154): out of the
range `[5, 100]` falls back to `DEFAULT_MASKING_LENGTH = 8`. -/
def getFixedMaskLength (cfg : MaskingConfigData) : Nat :=
  if cfg.fixedMaskLength < 5 || cfg.fixedMaskLength > 100 then 8
  else cfg.fixedMaskLength.toNat

/-- `MANDATORY_FILEPATTERN` of `config.ts`. -/
def mandatoryFilePattern : List Char := ".env".toList

/-- Default of the `eb_enabledFilePatterns` key. -/
def defaultEnabledFilePatterns : List (List Char) :=
  [".env".toList, ".env.local".toList, ".env.development".toList,
   ".env.production".toList, ".env.test".toList]

/-- `getEnabledFilePatterns` (`src/src/config.ts` lines 197–220): fetch
the configured list (or the default), and push `".env"` when the list is
empty or omits it. -/
def getEnabledFilePatterns (cfg : MaskingConfigData) : List (List Char) :=
  let patterns := cfg.enabledFilePatterns.getD defaultEnabledFilePatterns
  if patterns.length = 0 || !patterns.contains mandatoryFilePattern then
    patterns ++ [mandatoryFilePattern]
  else
    patterns

/-- `s.repeat(n)` on a character-list string. -/
def repeatS (s : List Char) (n : Nat) : List Char :=
  (List.replicate n s).flatten

/-- `generateMask` (`src/src/envFileMasker.ts` lines 286–295). -/
def generateMask (cfg : MaskingConfigData) (value : List Char) : List Char :=
  let maskChar := getMaskingCharacter cfg
  if cfg.maskingLengthStrategy = .eb_fixedLength then
    repeatS maskChar (getFixedMaskLength cfg)
  else
    repeatS maskChar value.length

/-- Does the pattern take the wildcard (cached regex) branch? -/
def isWildcardPattern (pattern : List Char) : Bool :=
  pattern.contains '*' || pattern.contains '?'

/-- `matchesEnabledPattern` (`src/src/config.ts` lines 269–286): any
enabled pattern matches, wildcard patterns through the compiled regex
(`regex && regex.test(fileName)`: an absent or unmodellable regex counts
as no match), others by string equality. -/
def matchesEnabledPattern (cfg : MaskingConfigData) (fileName : List Char) : Bool :=
  (getEnabledFilePatterns cfg).any fun pattern =>
    if isWildcardPattern pattern then (patternAccepts pattern fileName).getD false
    else fileName = pattern

/-- `path.basename` as the masker's `getFileName` computes it
(`envFileMasker.ts` lines 186–190): last segment after splitting on `/`
and `\`. -/
def getFileName (path : List Char) : List Char :=
  ((path.reverse.takeWhile fun c => !(c = '/') && !(c = '\\')).reverse)

/-- `filePath.replace(/\\/g, "/")`. -/
def normalizePath (path : List Char) : List Char :=
  path.map fun c => if c = '\\' then '/' else c

/-- `isFileBlacklisted` (`src/src/config.ts` lines 228–259). -/
def isFileBlacklisted (cfg : MaskingConfigData) (filePath : List Char) : Bool :=
  if (trim filePath).length = 0 then false
  else if cfg.blacklistedFiles.length = 0 then false
  else
    let fileName := getFileName filePath
    let normalizedPath := normalizePath filePath
    cfg.blacklistedFiles.any fun pattern =>
      if isWildcardPattern pattern then
        (patternAccepts pattern fileName).getD false ||
        (patternAccepts pattern normalizedPath).getD false
      else
        fileName = pattern || endsWithL pattern normalizedPath ||
        normalizedPath = pattern

/-! ## RevealStateStore + controller (`src/src/envFileMasker.ts`)

JavaScript `Map`s become association lists in insertion order
(`alInsert` updates in place or appends, like `Map.set`; `alErase` is
`Map.delete`). `setTimeout` allocates a fresh id from `nextTimerId` and
records a live `TimerRef`; `clearTimeout` removes its id from the pool.
A timer that is never cleared stays in `liveTimers` — the leak the spec
is concerned with is directly observable there. -/

/-- Association-list lookup (`Map.get` / `Map.has`). -/
def alLookup {α β : Type} [DecidableEq α] (k : α) : List (α × β) → Option β
  | [] => none
  | (k', v) :: rest => if k' = k then some v else alLookup k rest

/-- Association-list update-or-append (`Map.set`). -/
def alInsert {α β : Type} [DecidableEq α] (k : α) (v : β) : List (α × β) → List (α × β)
  | [] => [(k, v)]
  | (k', v') :: rest =>
    if k' = k then (k, v) :: rest else (k', v') :: alInsert k v rest

/-- Association-list removal (`Map.delete`; keys are unique). -/
def alErase {α β : Type} [DecidableEq α] (k : α) : List (α × β) → List (α × β)
  | [] => []
  | (k', v') :: rest => if k' = k then rest else (k', v') :: alErase k rest

/-- `RevealedValue` interface of `envFileMasker.ts`; `timeout` holds the
id of the scheduled auto-hide timer, if any. -/
structure RevealedValue where
  line : Nat
  startChar : Nat
  endChar : Nat
  timeout : Option Nat := none
deriving DecidableEq, Repr

/-- A live (scheduled, not yet cleared) timer, remembering which
document and line its callback would delete. -/
structure TimerRef where
  id : Nat
  uri : List Char
  line : Nat
deriving DecidableEq, Repr

/-- The masker's mutable state: `revealedValues` keyed by document uri,
plus the pool of live timers and the enable gate. -/
structure MaskerState where
  revealedValues : List (List Char × List (Nat × RevealedValue))
  liveTimers : List TimerRef
  nextTimerId : Nat
  enabled : Bool
deriving Repr

/-- `clearTimeout(revealed.timeout)` guarded by `if (revealed.timeout)`. -/
def clearTimeoutT (t : Option Nat) (timers : List TimerRef) : List TimerRef :=
  match t with
  | none => timers
  | some id => timers.filter fun tr => tr.id ≠ id

/-- The live timers whose callbacks reference a given document. -/
def timersForDoc (uri : List Char) (s : MaskerState) : List TimerRef :=
  s.liveTimers.filter fun tr => tr.uri = uri

/-- The live timers whose callbacks reference a given document line. -/
def timersForLine (uri : List Char) (line : Nat) (s : MaskerState) : List TimerRef :=
  s.liveTimers.filter fun tr => tr.uri = uri && tr.line = line

/-- The reveal map a document currently has (`revealedValues.get(uri)`,
an empty map when absent). -/
def revealedForFileOf (uri : List Char) (s : MaskerState) : List (Nat × RevealedValue) :=
  (alLookup uri s.revealedValues).getD []

/-- `handleDocumentClose` (`src/src/envFileMasker.ts` lines 121–124):
`this.revealedValues.delete(uri)` and nothing else — in particular no
timer is cleared. -/
def handleDocumentClose (uri : List Char) (s : MaskerState) : MaskerState :=
  { s with revealedValues := alErase uri s.revealedValues }

/-- `toggleValueVisibility` (`src/src/envFileMasker.ts` lines 339–378),
state part. `autoHideDelay` is what `this.config.getAutoHideDelay()`
returns at the call. The source first inserts an empty map for a
missing uri and then mutates it; reading the map with an empty default
and writing the result back is the same. -/
def toggleValueVisibility (uri : List Char) (envVar : EnvVariable)
    (autoHideDelay : Nat) (s : MaskerState) : MaskerState :=
  let revealedForFile := revealedForFileOf uri s
  match alLookup envVar.line revealedForFile with
  | some revealed =>
    { s with
      revealedValues := alInsert uri (alErase envVar.line revealedForFile) s.revealedValues
      liveTimers := clearTimeoutT revealed.timeout s.liveTimers }
  | none =>
    if autoHideDelay > 0 then
      { s with
        revealedValues := alInsert uri
          (alInsert envVar.line
            { line := envVar.line, startChar := envVar.valueStart,
              endChar := envVar.valueEnd, timeout := some s.nextTimerId }
            revealedForFile) s.revealedValues
        liveTimers := s.liveTimers ++ [⟨s.nextTimerId, uri, envVar.line⟩]
        nextTimerId := s.nextTimerId + 1 }
    else
      { s with
        revealedValues := alInsert uri
          (alInsert envVar.line
            { line := envVar.line, startChar := envVar.valueStart,
              endChar := envVar.valueEnd, timeout := none }
            revealedForFile) s.revealedValues }

/-- `revealAllValues` (`src/src/envFileMasker.ts` lines 430–458), state
part, given the parsed `envVariables` of the active document: every
parsed line is `set` to an entry without a timeout. No `clearTimeout`
appears anywhere in the source function. -/
def revealAllValues (uri : List Char) (envVariables : List EnvVariable)
    (s : MaskerState) : MaskerState :=
  let revealedForFile := revealedForFileOf uri s
  let updated := envVariables.foldl
    (fun m envVar =>
      alInsert envVar.line
        { line := envVar.line, startChar := envVar.valueStart,
          endChar := envVar.valueEnd, timeout := none } m)
    revealedForFile
  { s with revealedValues := alInsert uri updated s.revealedValues }

/-- A decoration range `(line, startChar) – (line, endChar)`. -/
structure DecorationRange where
  line : Nat
  startChar : Nat
  endChar : Nat
deriving DecidableEq, Repr

/-- `applyMasking` (`src/src/envFileMasker.ts` lines 231–276), as the
pair (maskDecorations, revealDecorations) it hands to `setDecorations`.
The source's forEach pushes each variable onto exactly one of the two
lists in document order, which is the same as filtering each list. -/
def applyMasking (cfg : MaskingConfigData)
    (revealedForFile : List (Nat × RevealedValue))
    (envVariables : List EnvVariable) :
    List (DecorationRange × List Char) × List DecorationRange :=
  ((envVariables.filter fun v => (alLookup v.line revealedForFile).isNone).map
     fun v => (⟨v.line, v.valueStart, v.valueEnd⟩, generateMask cfg v.value),
   (envVariables.filter fun v => (alLookup v.line revealedForFile).isSome).map
     fun v => ⟨v.line, v.valueStart, v.valueEnd⟩)

/-- A visible editor: the uri keying `revealedValues`, the `fsPath` the
pattern gate sees, and the document's lines. -/
structure Editor where
  uri : List Char
  fsPath : List Char
  lines : List (List Char)

/-- `shouldProcessFile` (`src/src/envFileMasker.ts` lines 158–176):
blacklist gate, then the enabled patterns against the bare file name
(wildcards via a freshly built regex, modelled like the cached one). -/
def shouldProcessFile (cfg : MaskingConfigData) (fsPath : List Char) : Bool :=
  let fileName := getFileName fsPath
  if isFileBlacklisted cfg fsPath then false
  else
    (getEnabledFilePatterns cfg).any fun pattern =>
      if isWildcardPattern pattern then (patternAccepts pattern fileName).getD false
      else fileName = pattern

/-- `processEditor` (`src/src/envFileMasker.ts` lines 199–206): no
output while disabled, otherwise parse and apply masking. -/
def processEditor (cfg : MaskingConfigData) (s : MaskerState) (e : Editor) :
    Option (List (DecorationRange × List Char) × List DecorationRange) :=
  if s.enabled = false then none
  else some (applyMasking cfg (revealedForFileOf e.uri s) (parseDocument_v3 e.lines))

/-- `processAllOpenEditors` (`src/src/envFileMasker.ts` lines 214–220):
the decorations produced per visible editor that passes the gate. -/
def processAllOpenEditors (cfg : MaskingConfigData) (editors : List Editor)
    (s : MaskerState) :
    List (List Char × (List (DecorationRange × List Char) × List DecorationRange)) :=
  editors.filterMap fun e =>
    if shouldProcessFile cfg e.fsPath then (processEditor cfg s e).map ((e.uri, ·))
    else none

/-- `toggleMasking` (`src/src/envFileMasker.ts` lines 408–422): flip the
gate; when now enabled re-process all open editors, when now disabled
set empty decoration lists on every visible editor. Returns the new
state and the decoration batches per editor uri. -/
def toggleMasking (cfg : MaskingConfigData) (editors : List Editor)
    (s : MaskerState) :
    MaskerState ×
    List (List Char × (List (DecorationRange × List Char) × List DecorationRange)) :=
  let s' := { s with enabled := !s.enabled }
  if s'.enabled then (s', processAllOpenEditors cfg editors s')
  else (s', editors.map fun e => (e.uri, ([], [])))

/-! ## Helper lemmas -/

theorem alLookup_alInsert_self {α β : Type} [DecidableEq α] (k : α) (v : β)
    (m : List (α × β)) : alLookup k (alInsert k v m) = some v := by
  induction m with
  | nil => simp [alInsert, alLookup]
  | cons hd tl ih =>
    obtain ⟨k', v'⟩ := hd
    by_cases h : k' = k <;> simp [alInsert, alLookup, h, ih]

theorem alErase_alInsert_of_not_mem {α β : Type} [DecidableEq α] (k : α) (v : β)
    (m : List (α × β)) (h : alLookup k m = none) :
    alErase k (alInsert k v m) = m := by
  induction m with
  | nil => simp [alInsert, alErase]
  | cons hd tl ih =>
    obtain ⟨k', v'⟩ := hd
    by_cases hk : k' = k
    · simp [alLookup, hk] at h
    · simp only [alLookup, if_neg hk] at h
      simp [alInsert, alErase, hk, ih h]

theorem repeatS_length (s : List Char) (n : Nat) :
    (repeatS s n).length = n * s.length := by
  simp [repeatS, List.length_flatten, List.map_replicate, List.sum_replicate,
    smul_eq_mul]

theorem getMaskingCharacter_length (cfg : MaskingConfigData) :
    (getMaskingCharacter cfg).length = 1 := by
  unfold getMaskingCharacter
  split <;> simp_all

theorem generateMask_length_eq (cfg : MaskingConfigData) (value : List Char) :
    (generateMask cfg value).length =
      if cfg.maskingLengthStrategy = .eb_fixedLength then getFixedMaskLength cfg
      else value.length := by
  unfold generateMask
  split <;> simp [repeatS_length, getMaskingCharacter_length]

/-! ## Claims -/

/-- C1: the claim says `handleDocumentClose` first cancels every timer
owned by the closed document's reveal entries and then removes the map,
leaving zero live timers referencing the document. The code only
deletes the map: closing a document holding two pending reveal timers
leaves both timers live (while its own doc comment promises that the
auto-hide timers are cleared). -/
theorem handleDocumentClose_leaves_timers_live :
    (timersForDoc "file:///a/.env".toList
        (handleDocumentClose "file:///a/.env".toList
          ⟨[("file:///a/.env".toList, [(0, ⟨0, 8, 17, some 0⟩), (1, ⟨1, 8, 17, some 1⟩)])],
            [⟨0, "file:///a/.env".toList, 0⟩, ⟨1, "file:///a/.env".toList, 1⟩],
            2, true⟩)).length = 2 ∧
    alLookup "file:///a/.env".toList
        (handleDocumentClose "file:///a/.env".toList
          ⟨[("file:///a/.env".toList, [(0, ⟨0, 8, 17, some 0⟩), (1, ⟨1, 8, 17, some 1⟩)])],
            [⟨0, "file:///a/.env".toList, 0⟩, ⟨1, "file:///a/.env".toList, 1⟩],
            2, true⟩).revealedValues = none := by
  decide

/-- C2: the claim says `revealAllValues` puts every parsed line into
Revealed-Persistent and cancels any timer of an overwritten entry. The
code does make every entry persistent (`timeout := none`) but never
calls `clearTimeout`: overwriting a Revealed-Pending entry leaves its
timer live. -/
theorem revealAllValues_leaks_timer :
    alLookup 0 (revealedForFileOf "file:///a/.env".toList
        (revealAllValues "file:///a/.env".toList
          [⟨0, "A".toList, "1".toList, 0, 1, 2, 3⟩]
          ⟨[("file:///a/.env".toList, [(0, ⟨0, 2, 3, some 5⟩)])],
            [⟨5, "file:///a/.env".toList, 0⟩], 6, true⟩)) =
      some ⟨0, 2, 3, none⟩ ∧
    (revealAllValues "file:///a/.env".toList
        [⟨0, "A".toList, "1".toList, 0, 1, 2, 3⟩]
        ⟨[("file:///a/.env".toList, [(0, ⟨0, 2, 3, some 5⟩)])],
          [⟨5, "file:///a/.env".toList, 0⟩], 6, true⟩).liveTimers =
      [⟨5, "file:///a/.env".toList, 0⟩] := by
  decide

/-- C4 (amended): the mask is the mask character repeated `valueLength`
times under ProportionalLength; under FixedLength it is repeated
`fixedLength` times when `fixedLength ∈ [5, 100]` and `8` times (the
`DEFAULT_MASKING_LENGTH` fallback) otherwise — not clamped to the range
as the original claim stated. -/
theorem generateMask_length (value : List Char) (cfg : MaskingConfigData) :
    (cfg.maskingLengthStrategy = .eb_proportionalLength →
      (generateMask cfg value).length = value.length) ∧
    (cfg.maskingLengthStrategy = .eb_fixedLength →
      (generateMask cfg value).length =
        if 5 ≤ cfg.fixedMaskLength ∧ cfg.fixedMaskLength ≤ 100 then
          cfg.fixedMaskLength.toNat
        else 8) := by
  constructor
  · intro h
    rw [generateMask_length_eq, if_neg (by simp [h])]
  · intro h
    rw [generateMask_length_eq, if_pos h]
    unfold getFixedMaskLength
    split
    · rename_i hc
      simp only [Bool.or_eq_true, decide_eq_true_eq] at hc
      rw [if_neg (by omega)]
    · rename_i hc
      simp only [Bool.or_eq_true, decide_eq_true_eq, not_or] at hc
      rw [if_pos (by omega)]

/-- Witness for `generateMask_length` at a concrete proportional and a
concrete in-range fixed configuration. -/
theorem generateMask_length_witness :
    (generateMask
        ⟨"•".toList, .eb_proportionalLength, 8, 0, none, []⟩
        "localhost".toList).length = 9 ∧
    (generateMask
        ⟨"•".toList, .eb_fixedLength, 20, 0, none, []⟩
        "xy".toList).length = 20 := by
  refine ⟨?_, ?_⟩
  · exact (generateMask_length "localhost".toList
      ⟨"•".toList, .eb_proportionalLength, 8, 0, none, []⟩).1 rfl
  · have h := (generateMask_length "xy".toList
      ⟨"•".toList, .eb_fixedLength, 20, 0, none, []⟩).2 rfl
    simpa using h

/-- C4 counterexample: with the FixedLength strategy and a configured
fixed length of 3, the mask has length 8 (the default), not the clamped
length 5 the claim predicts. -/
theorem generateMask_not_clamped :
    (generateMask ⟨"•".toList, .eb_fixedLength, 3, 0, none, []⟩
        "ab".toList).length = 8 ∧ (8 : Nat) ≠ 5 := by
  decide

/-- C9: for every configuration — the enabled-pattern list unset, empty,
or omitting `".env"` — `getEnabledFilePatterns` yields a list containing
the literal pattern `".env"`, and `matchesEnabledPattern` answers true
for the bare file name `".env"`. -/
theorem env_pattern_always_enabled (cfg : MaskingConfigData) :
    ".env".toList ∈ getEnabledFilePatterns cfg ∧
    matchesEnabledPattern cfg ".env".toList = true := by
  have key : ∀ ps : List (List Char), mandatoryFilePattern ∈
      (if ps.length = 0 || !ps.contains mandatoryFilePattern then
        ps ++ [mandatoryFilePattern] else ps) := by
    intro ps
    split
    · exact List.mem_append_right _ (List.mem_singleton.mpr rfl)
    · rename_i h
      simp only [Bool.or_eq_true, decide_eq_true_eq, Bool.not_eq_true',
        not_or, Bool.not_eq_false] at h
      exact List.mem_of_elem_eq_true h.2
  have hmem : ".env".toList ∈ getEnabledFilePatterns cfg :=
    key (cfg.enabledFilePatterns.getD defaultEnabledFilePatterns)
  refine ⟨hmem, ?_⟩
  unfold matchesEnabledPattern
  rw [List.any_eq_true]
  exact ⟨".env".toList, hmem, by simp [isWildcardPattern]⟩

theorem toggleValueVisibility_of_none {s : MaskerState} {uri : List Char}
    {envVar : EnvVariable} (delay : Nat)
    (h : alLookup envVar.line (revealedForFileOf uri s) = none) :
    toggleValueVisibility uri envVar delay s =
      if delay > 0 then
        { s with
          revealedValues := alInsert uri
            (alInsert envVar.line
              { line := envVar.line, startChar := envVar.valueStart,
                endChar := envVar.valueEnd, timeout := some s.nextTimerId }
              (revealedForFileOf uri s)) s.revealedValues
          liveTimers := s.liveTimers ++ [⟨s.nextTimerId, uri, envVar.line⟩]
          nextTimerId := s.nextTimerId + 1 }
      else
        { s with
          revealedValues := alInsert uri
            (alInsert envVar.line
              { line := envVar.line, startChar := envVar.valueStart,
                endChar := envVar.valueEnd, timeout := none }
              (revealedForFileOf uri s)) s.revealedValues } := by
  simp only [toggleValueVisibility, h]

theorem toggleValueVisibility_of_some {s : MaskerState} {uri : List Char}
    {envVar : EnvVariable} {r : RevealedValue} (delay : Nat)
    (h : alLookup envVar.line (revealedForFileOf uri s) = some r) :
    toggleValueVisibility uri envVar delay s =
      { s with
        revealedValues := alInsert uri
          (alErase envVar.line (revealedForFileOf uri s)) s.revealedValues
        liveTimers := clearTimeoutT r.timeout s.liveTimers } := by
  simp only [toggleValueVisibility, h]

/-- C7: from a state where the line is Masked — no reveal entry and, as
the spec's ownership model implies, no live timer for that line —
toggling the line's visibility twice returns it to Masked: no entry for
the line and no live timer for it, whatever the auto-hide delay. -/
theorem toggle_twice_masked (s : MaskerState) (uri : List Char)
    (envVar : EnvVariable) (delay : Nat)
    (hM : alLookup envVar.line (revealedForFileOf uri s) = none)
    (hT : timersForLine uri envVar.line s = []) :
    alLookup envVar.line
        (revealedForFileOf uri
          (toggleValueVisibility uri envVar delay
            (toggleValueVisibility uri envVar delay s))) = none ∧
    timersForLine uri envVar.line
        (toggleValueVisibility uri envVar delay
          (toggleValueVisibility uri envVar delay s)) = [] := by
  have hnotimer : ∀ tr ∈ s.liveTimers, ¬(tr.uri = uri ∧ tr.line = envVar.line) := by
    intro tr htr hcon
    have hmem : tr ∈ timersForLine uri envVar.line s := by
      simp only [timersForLine, List.mem_filter]
      exact ⟨htr, by simp [hcon.1, hcon.2]⟩
    rw [hT] at hmem
    exact absurd hmem (List.not_mem_nil tr)
  by_cases hd : delay > 0
  · set entry : RevealedValue :=
      { line := envVar.line, startChar := envVar.valueStart,
        endChar := envVar.valueEnd, timeout := some s.nextTimerId } with hentry
    set s1 : MaskerState :=
      { s with
        revealedValues := alInsert uri
          (alInsert envVar.line entry (revealedForFileOf uri s)) s.revealedValues
        liveTimers := s.liveTimers ++ [⟨s.nextTimerId, uri, envVar.line⟩]
        nextTimerId := s.nextTimerId + 1 } with hs1
    have h1 : toggleValueVisibility uri envVar delay s = s1 := by
      rw [toggleValueVisibility_of_none delay hM, if_pos hd, hs1]
    have hfile1 : revealedForFileOf uri s1 =
        alInsert envVar.line entry (revealedForFileOf uri s) := by
      simp [hs1, revealedForFileOf, alLookup_alInsert_self]
    have hsome : alLookup envVar.line (revealedForFileOf uri s1) = some entry := by
      rw [hfile1]; exact alLookup_alInsert_self _ _ _
    rw [h1, toggleValueVisibility_of_some delay hsome]
    constructor
    · rw [revealedForFileOf]
      simp only [alLookup_alInsert_self, Option.getD_some, hfile1]
      rw [alErase_alInsert_of_not_mem _ _ _ hM, hM]
    · rw [timersForLine]
      simp only [hentry, clearTimeoutT, hs1, List.filter_append,
        List.filter_filter]
      rw [List.filter_eq_nil_iff.mpr, List.filter_eq_nil_iff.mpr,
        List.nil_append]
      · intro tr htr
        simp only [List.mem_singleton] at htr
        subst htr
        simp
      · intro tr htr
        simp only [Bool.and_eq_true, decide_eq_true_eq, not_and,
          Bool.and_eq_false_iff]
        intro hcon
        rcases hcon with ⟨h1', h2'⟩
        exact absurd ⟨h1', h2'⟩ (hnotimer tr htr)
  · set entry : RevealedValue :=
      { line := envVar.line, startChar := envVar.valueStart,
        endChar := envVar.valueEnd, timeout := none } with hentry
    set s1 : MaskerState :=
      { s with
        revealedValues := alInsert uri
          (alInsert envVar.line entry (revealedForFileOf uri s))
          s.revealedValues } with hs1
    have h1 : toggleValueVisibility uri envVar delay s = s1 := by
      rw [toggleValueVisibility_of_none delay hM, if_neg hd, hs1]
    have hfile1 : revealedForFileOf uri s1 =
        alInsert envVar.line entry (revealedForFileOf uri s) := by
      simp [hs1, revealedForFileOf, alLookup_alInsert_self]
    have hsome : alLookup envVar.line (revealedForFileOf uri s1) = some entry := by
      rw [hfile1]; exact alLookup_alInsert_self _ _ _
    rw [h1, toggleValueVisibility_of_some delay hsome]
    constructor
    · rw [revealedForFileOf]
      simp only [alLookup_alInsert_self, Option.getD_some, hfile1]
      rw [alErase_alInsert_of_not_mem _ _ _ hM, hM]
    · rw [timersForLine]
      simp only [hentry, clearTimeoutT, hs1]
      rw [List.filter_eq_nil_iff.mpr]
      intro tr htr
      simp only [Bool.and_eq_true, decide_eq_true_eq, not_and]
      intro h1' h2'
      exact absurd ⟨h1', h2'⟩ (hnotimer tr htr)

/-- Witness for `toggle_twice_masked`: the empty state, a concrete
variable and a positive auto-hide delay. -/
theorem toggle_twice_masked_witness :
    alLookup 0
        (revealedForFileOf "u".toList
          (toggleValueVisibility "u".toList
            ⟨0, "A".toList, "1".toList, 0, 1, 2, 3⟩ 5000
            (toggleValueVisibility "u".toList
              ⟨0, "A".toList, "1".toList, 0, 1, 2, 3⟩ 5000
              ⟨[], [], 0, true⟩))) = none ∧
    timersForLine "u".toList 0
        (toggleValueVisibility "u".toList
          ⟨0, "A".toList, "1".toList, 0, 1, 2, 3⟩ 5000
          (toggleValueVisibility "u".toList
            ⟨0, "A".toList, "1".toList, 0, 1, 2, 3⟩ 5000
            ⟨[], [], 0, true⟩)) = [] :=
  toggle_twice_masked ⟨[], [], 0, true⟩ "u".toList
    ⟨0, "A".toList, "1".toList, 0, 1, 2, 3⟩ 5000 (by decide) (by decide)

/-- C8: disabling masking via `toggleMasking` emits the empty decoration
pair for every visible editor while leaving the reveal-state map, the
live timers and the timer counter untouched; toggling again re-enables,
and every editor passing the file gate gets a render batch in which each
parsed line holding a reveal entry appears as a revealed decoration. -/
theorem toggleMasking_disable_enable (cfg : MaskingConfigData)
    (editors : List Editor) (s : MaskerState) (hen : s.enabled = true) :
    ((toggleMasking cfg editors s).2 = editors.map fun e => (e.uri, ([], []))) ∧
    ((toggleMasking cfg editors s).1.revealedValues = s.revealedValues ∧
      (toggleMasking cfg editors s).1.liveTimers = s.liveTimers ∧
      (toggleMasking cfg editors s).1.nextTimerId = s.nextTimerId ∧
      (toggleMasking cfg editors s).1.enabled = false) ∧
    (∀ e ∈ editors, shouldProcessFile cfg e.fsPath = true →
      (e.uri, applyMasking cfg (revealedForFileOf e.uri s)
          (parseDocument_v3 e.lines)) ∈
        (toggleMasking cfg editors (toggleMasking cfg editors s).1).2 ∧
      ∀ v ∈ parseDocument_v3 e.lines,
        (alLookup v.line (revealedForFileOf e.uri s)).isSome = true →
        (⟨v.line, v.valueStart, v.valueEnd⟩ : DecorationRange) ∈
          (applyMasking cfg (revealedForFileOf e.uri s)
            (parseDocument_v3 e.lines)).2) := by
  have hdis : toggleMasking cfg editors s =
      ({ s with enabled := false }, editors.map fun e => (e.uri, ([], []))) := by
    simp [toggleMasking, hen]
  refine ⟨by rw [hdis], by rw [hdis]; exact ⟨rfl, rfl, rfl, rfl⟩, ?_⟩
  intro e he hgate
  have hre : toggleMasking cfg editors (toggleMasking cfg editors s).1 =
      ({ s with enabled := true },
        processAllOpenEditors cfg editors { s with enabled := true }) := by
    rw [hdis]
    simp [toggleMasking]
  constructor
  · rw [hre]
    simp only [processAllOpenEditors, List.mem_filterMap]
    refine ⟨e, he, ?_⟩
    rw [if_pos hgate]
    simp [processEditor, revealedForFileOf]
  · intro v hv hrev
    simp only [applyMasking, List.mem_map]
    refine ⟨v, ?_, rfl⟩
    rw [List.mem_filter]
    exact ⟨hv, hrev⟩

/-- Witness for `toggleMasking_disable_enable`: one visible `.env`
editor with line 0 revealed and no timer. -/
theorem toggleMasking_disable_enable_witness :
    ((toggleMasking
        ⟨"•".toList, .eb_proportionalLength, 8, 0, none, []⟩
        [⟨"u".toList, "/a/.env".toList, ["A=1".toList]⟩]
        ⟨[("u".toList, [(0, ⟨0, 2, 3, none⟩)])], [], 0, true⟩).2 =
      [("u".toList, ([], []))]) ∧
    (⟨0, 2, 3⟩ : DecorationRange) ∈
      (applyMasking ⟨"•".toList, .eb_proportionalLength, 8, 0, none, []⟩
        (revealedForFileOf "u".toList
          ⟨[("u".toList, [(0, ⟨0, 2, 3, none⟩)])], [], 0, true⟩)
        (parseDocument_v3 ["A=1".toList])).2 := by
  have h := toggleMasking_disable_enable
    ⟨"•".toList, .eb_proportionalLength, 8, 0, none, []⟩
    [⟨"u".toList, "/a/.env".toList, ["A=1".toList]⟩]
    ⟨[("u".toList, [(0, ⟨0, 2, 3, none⟩)])], [], 0, true⟩ rfl
  refine ⟨h.1, ?_⟩
  have h2 := (h.2.2 ⟨"u".toList, "/a/.env".toList, ["A=1".toList]⟩
    (List.mem_singleton.mpr rfl) (by decide)).2
    ⟨0, "A".toList, "1".toList, 0, 1, 2, 3⟩ (by decide) (by decide)
  exact h2

theorem parseLine_v3_reject (lineText : List Char) (n : Nat)
    (H : rejectCond lineText) : parseLine_v3 lineText n = none := by
  simp only [parseLine_v3]
  split <;> rename_i h1
  · rfl
  · split <;> rename_i h2
    · rfl
    · split <;> rename_i he
      · rfl
      · rename_i eq
        split <;> rename_i hk
        · rfl
        · split <;> rename_i hv
          · rfl
          · exfalso
            simp only [Bool.or_eq_true, not_or, List.isEmpty_iff,
              Bool.not_eq_true] at h1
            simp only [Bool.not_eq_true] at h2
            simp only [Bool.not_eq_true, Bool.not_eq_false] at hk
            obtain ⟨⟨h1a, h1b⟩, h1c⟩ := h1
            rcases H with H | H | H | H | H | ⟨eq', Heq, H⟩
            · exact h1a H
            · exact absurd H (by simpa using h1b)
            · exact absurd H (by simpa using h1c)
            · exact absurd H (by simpa using h2)
            · rw [he] at H; exact Option.noConfusion H
            · rw [he] at Heq
              injection Heq with heq'
              subst heq'
              rcases H with H | H
              · exact hv (by simp [H])
              · simp [H] at hk

theorem parseLine_v2_reject (lineText : List Char) (n : Nat)
    (H : rejectCond lineText) : parseLine_v2 lineText n = none := by
  simp only [parseLine_v2]
  split <;> rename_i h1
  · rfl
  · split <;> rename_i h2
    · rfl
    · split <;> rename_i he
      · rfl
      · rename_i eq
        split <;> rename_i hk
        · rfl
        · split <;> rename_i hv
          · rfl
          · exfalso
            simp only [Bool.or_eq_true, not_or, List.isEmpty_iff,
              Bool.not_eq_true] at h1
            simp only [Bool.not_eq_true] at h2
            simp only [Bool.not_eq_true, Bool.not_eq_false] at hk
            obtain ⟨⟨h1a, h1b⟩, h1c⟩ := h1
            rcases H with H | H | H | H | H | ⟨eq', Heq, H⟩
            · exact h1a H
            · exact absurd H (by simpa using h1b)
            · exact absurd H (by simpa using h1c)
            · exact absurd H (by simpa using h2)
            · rw [he] at H; exact Option.noConfusion H
            · rw [he] at Heq
              injection Heq with heq'
              subst heq'
              rcases H with H | H
              · exact hv (by simp [H])
              · simp [H] at hk

/-- C3: `parseLine("API_KEY=secret123", 0)` yields line 0, key
`API_KEY`, value `secret123`, keyStart 0, keyEnd 7, valueStart 8,
valueEnd 17 (in both parser revisions); `"API-KEY=1"` is rejected; and
every line that trims to empty, starts (trimmed) with `#`, `//` or
`export `, has no `=`, has an empty value, or has a key failing
`^[A-Za-z_][A-Za-z0-9_]*$`, parses to `none` in both revisions. -/
theorem parseLine_spec_examples :
    (parseLine_v3 "API_KEY=secret123".toList 0 =
        some ⟨0, "API_KEY".toList, "secret123".toList, 0, 7, 8, 17⟩ ∧
      parseLine_v2 "API_KEY=secret123".toList 0 =
        some ⟨0, "API_KEY".toList, "secret123".toList, 0, 7, 8, 17⟩) ∧
    (parseLine_v3 "API-KEY=1".toList 0 = none ∧
      parseLine_v2 "API-KEY=1".toList 0 = none) ∧
    (∀ (lineText : List Char) (n : Nat), rejectCond lineText →
      parseLine_v3 lineText n = none ∧ parseLine_v2 lineText n = none) := by
  refine ⟨⟨by decide, by decide⟩, ⟨by decide, by decide⟩, ?_⟩
  intro lineText n H
  exact ⟨parseLine_v3_reject lineText n H, parseLine_v2_reject lineText n H⟩

/-- Witness for `parseLine_spec_examples`: a line with no `=` satisfies
the rejection condition and both parsers return `none` on it. -/
theorem parseLine_spec_examples_witness :
    indexOfC '=' (trim "no equals here".toList) = none ∧
    (parseLine_v3 "no equals here".toList 7 = none ∧
      parseLine_v2 "no equals here".toList 7 = none) :=
  ⟨by decide,
    parseLine_spec_examples.2.2 "no equals here".toList 7
      (Or.inr (Or.inr (Or.inr (Or.inr (Or.inl (by decide))))))⟩

/-- C10 counterexample: on the line `"A=1 "` (trailing space) the two
parser revisions disagree — part_002 reports `valueEnd = 4` (the line
length) while part_003 reports `valueEnd = 3`. -/
theorem parseLine_revisions_differ :
    parseLine_v2 "A=1 ".toList 0 ≠ parseLine_v3 "A=1 ".toList 0 ∧
    parseLine_v2 "A=1 ".toList 0 =
      some ⟨0, "A".toList, "1".toList, 0, 1, 2, 4⟩ ∧
    parseLine_v3 "A=1 ".toList 0 =
      some ⟨0, "A".toList, "1".toList, 0, 1, 2, 3⟩ := by
  decide

/-- C10 (amended): the two parser revisions accept exactly the same
lines and agree on every field except `valueEnd`: part_002 always
reports the original line length there, i.e. its result is part_003's
with `valueEnd` overwritten by `lineText.length`. -/
theorem parseLine_v2_eq_map_v3 (lineText : List Char) (n : Nat) :
    parseLine_v2 lineText n =
      (parseLine_v3 lineText n).map fun v => { v with valueEnd := lineText.length } := by
  simp only [parseLine_v2, parseLine_v3]
  split <;> rename_i h1
  · simp
  · split <;> rename_i h2
    · simp
    · split <;> rename_i he
      · simp
      · rename_i eq
        split <;> rename_i hk
        · simp
        · split <;> rename_i hv
          · simp
          · split <;> rename_i hks
            · simp
            · rename_i ks
              split <;> rename_i heo
              · simp
              · simp

theorem encodeGlobChar_ne_nil (c : Char) : encodeGlobChar c ≠ [] := by
  unfold encodeGlobChar
  split
  · simp
  · split <;> simp

theorem compiledRegexOf_nil_iff (p : List Char) :
    compiledRegexOf p = [] ↔ p = [] := by
  cases p with
  | nil => simp [compiledRegexOf]
  | cons c p' =>
    simp only [compiledRegexOf, List.map_cons, List.flatten_cons,
      List.append_eq_nil]
    constructor
    · rintro ⟨h, -⟩
      exact absurd h (encodeGlobChar_ne_nil c)
    · intro h
      exact absurd h (List.cons_ne_nil c p')

theorem compiledRegexOf_head_ne_star (p : List Char)
    (hsafe : p.all safeGlobChar = true) (r : Char) (rs : List Char)
    (h : compiledRegexOf p = r :: rs) : r ≠ '*' := by
  cases p with
  | nil => simp [compiledRegexOf] at h
  | cons c p' =>
    simp only [List.all_cons, Bool.and_eq_true] at hsafe
    have hc := hsafe.1
    simp only [compiledRegexOf, List.map_cons, List.flatten_cons] at h
    unfold encodeGlobChar at h
    by_cases h1 : c = '*'
    · rw [if_pos h1] at h
      injection h with hr _
      rw [← hr]
      decide
    · rw [if_neg h1] at h
      by_cases h2 : c = '?'
      · rw [if_pos h2] at h
        injection h with hr _
        rw [← hr]
        decide
      · rw [if_neg h2] at h
        injection h with hr _
        rw [← hr]
        exact h1

theorem parseRegexL_cons_star (rest : List Char) :
    parseRegexL ('.' :: '*' :: rest) =
      (parseRegexL rest).map (fun ps => .star .rdot :: ps) := by
  simp [parseRegexL, isRegexMeta]

theorem parseRegexL_cons_nostar (d : Char) (rest : List Char)
    (hd : isRegexMeta d = false) (hdstar : d ≠ '*')
    (hrest : ∀ r rs, rest = r :: rs → r ≠ '*') :
    parseRegexL (d :: rest) =
      (parseRegexL rest).map
        (fun ps => .once (if d = '.' then .rdot else .rlit d) :: ps) := by
  cases rest with
  | nil => simp [parseRegexL, hd, hdstar]
  | cons r rs =>
    have hr := hrest r rs rfl
    simp [parseRegexL, hd, hdstar, hr]

theorem parseRegexL_compiled (p : List Char)
    (hsafe : p.all safeGlobChar = true) :
    parseRegexL (compiledRegexOf p) = some (piecesOfGlob p) := by
  induction p with
  | nil => simp [compiledRegexOf, parseRegexL, piecesOfGlob]
  | cons c p' ih =>
    simp only [List.all_cons, Bool.and_eq_true] at hsafe
    have hc := hsafe.1
    have ih' := ih hsafe.2
    have hhead := compiledRegexOf_head_ne_star p' hsafe.2
    have hcompiled : compiledRegexOf (c :: p') =
        encodeGlobChar c ++ compiledRegexOf p' := by
      simp [compiledRegexOf]
    by_cases h1 : c = '*'
    · subst h1
      rw [hcompiled, show encodeGlobChar '*' = ['.', '*'] from rfl,
        List.cons_append, List.cons_append, List.nil_append,
        parseRegexL_cons_star, ih']
      simp [piecesOfGlob]
    · by_cases h2 : c = '?'
      · subst h2
        rw [hcompiled, show encodeGlobChar '?' = ['.'] from rfl,
          List.cons_append, List.nil_append,
          parseRegexL_cons_nostar '.' _ (by decide) (by decide) hhead, ih']
        simp [piecesOfGlob]
      · have hsplit : isRegexMeta c = false ∧ ¬c = '.' := by
          simp only [safeGlobChar, h1, h2, Bool.or_eq_true, decide_eq_true_eq,
            Bool.and_eq_true, false_or, Bool.not_eq_true',
            decide_eq_false_iff_not] at hc
          exact hc
        have henc : encodeGlobChar c = [c] := by
          simp [encodeGlobChar, h1, h2]
        rw [hcompiled, henc, List.cons_append, List.nil_append,
          parseRegexL_cons_nostar c _ hsplit.1 h1 hhead, ih']
        simp [piecesOfGlob, h1, h2, hsplit.2]

theorem starMatch_rdot_eq_starLoop (k k' : List Char → Bool)
    (hk : ∀ t, k t = k' t) (s : List Char) :
    starMatch .rdot k s = starLoop k' s := by
  induction s with
  | nil => simp [starMatch, starLoop, hk]
  | cons x xs ih => simp [starMatch, starLoop, matchAtom, hk, ih]

theorem matchPieces_piecesOfGlob (p : List Char)
    (hsafe : p.all safeGlobChar = true) :
    ∀ s, matchPieces (piecesOfGlob p) s = globMatch p s := by
  induction p with
  | nil => intro s; simp [piecesOfGlob, matchPieces, globMatch]
  | cons c p' ih =>
    simp only [List.all_cons, Bool.and_eq_true] at hsafe
    have hc := hsafe.1
    have ih' := ih hsafe.2
    intro s
    by_cases h1 : c = '*'
    · subst h1
      have hg : globMatch ('*' :: p') s = starLoop (globMatch p') s := by
        simp [globMatch]
      have hp : matchPieces (piecesOfGlob ('*' :: p')) s =
          starMatch .rdot (matchPieces (piecesOfGlob p')) s := by
        simp [piecesOfGlob, matchPieces]
      rw [hg, hp]
      exact starMatch_rdot_eq_starLoop _ _ ih' s
    · have hdot : ¬c = '.' := by
        by_cases h2 : c = '?'
        · subst h2; decide
        · simp only [safeGlobChar, h1, h2, Bool.or_eq_true, decide_eq_true_eq,
            Bool.and_eq_true, false_or, Bool.not_eq_true',
            decide_eq_false_iff_not] at hc
          exact hc.2
      have hpieces : piecesOfGlob (c :: p') =
          .once (if c = '?' then .rdot else .rlit c) :: piecesOfGlob p' := by
        by_cases h2 : c = '?' <;> simp [piecesOfGlob, h1, h2, hdot]
      rw [hpieces]
      cases s with
      | nil =>
        simp only [matchPieces, globMatch]
        rw [if_neg h1]
      | cons x xs =>
        simp only [matchPieces, globMatch]
        rw [if_neg h1]
        simp only [ih' xs]
        by_cases h2 : c = '?' <;> simp [h2, matchAtom]

/-- C5 (amended): for a pattern containing `*` or `?` whose remaining
characters are not regex-special (no `.`, `+`, `?`, parentheses,
brackets, braces, `|`, `^`, `$` or backslash — the source passes them
into the regex unescaped, so e.g. a `.` in the pattern matches any
single character instead of a literal dot), the compiled matcher accepts
a candidate exactly when the glob reading does: `*` any run, `?` any
single character, other characters literally, anchored to the whole
string. -/
theorem compiled_pattern_matches_glob (pattern text : List Char)
    (_hw : (pattern.contains '*' || pattern.contains '?') = true)
    (hsafe : pattern.all safeGlobChar = true) :
    patternAccepts pattern text = some (globMatch pattern text) := by
  unfold patternAccepts
  rw [parseRegexL_compiled pattern hsafe]
  simp only [Option.map_some']
  rw [matchPieces_piecesOfGlob pattern hsafe text]

/-- Witness for `compiled_pattern_matches_glob` on the pattern `a*b`
and the candidate `aXXb`. -/
theorem compiled_pattern_matches_glob_witness :
    ("a*b".toList.contains '*' || "a*b".toList.contains '?') = true ∧
    "a*b".toList.all safeGlobChar = true ∧
    patternAccepts "a*b".toList "aXXb".toList =
      some (globMatch "a*b".toList "aXXb".toList) :=
  ⟨by decide, by decide,
    compiled_pattern_matches_glob "a*b".toList "aXXb".toList
      (by decide) (by decide)⟩

/-- C5 counterexample: the wildcard pattern `".env*"` compiles to the
regex `^.env.*$`, whose unescaped `.` matches any character: the
matcher accepts `"Xenv"`, which the glob reading (dot literal) rejects. -/
theorem compiled_pattern_dot_not_literal :
    patternAccepts ".env*".toList "Xenv".toList = some true ∧
    globMatch ".env*".toList "Xenv".toList = false ∧
    (".env*".toList.contains '*' || ".env*".toList.contains '?') = true := by
  decide


theorem startsWithL_iff (p l : List Char) :
    startsWithL p l = true ↔ ∃ r, l = p ++ r := by
  induction p generalizing l with
  | nil => simp [startsWithL]
  | cons c ps ih =>
    cases l with
    | nil => simp [startsWithL]
    | cons x xs =>
      simp only [startsWithL, Bool.and_eq_true, decide_eq_true_eq, ih,
        List.cons_append, List.cons_eq_cons]
      constructor
      · rintro ⟨hc, r, hr⟩
        exact ⟨r, hc.symm, hr⟩
      · rintro ⟨r, hc, hr⟩
        exact ⟨hc.symm, r, hr⟩

theorem dropWhile_head_not (q : Char → Bool) (l : List Char) (c : Char)
    (cs : List Char) (h : l.dropWhile q = c :: cs) : q c = false := by
  induction l with
  | nil => simp [List.dropWhile] at h
  | cons x xs ih =>
    by_cases hx : q x
    · rw [List.dropWhile_cons_of_pos hx] at h
      exact ih h
    · rw [List.dropWhile_cons_of_neg hx] at h
      injection h with h1 _
      rw [← h1]
      simpa using hx

theorem trimRight_decomp (m : List Char) :
    m = trimRight m ++ (m.reverse.takeWhile isWS).reverse := by
  conv_lhs => rw [← List.reverse_reverse m,
    ← List.takeWhile_append_dropWhile (p := isWS) (l := m.reverse),
    List.reverse_append]
  rfl

theorem trim_decomp (l : List Char) :
    ∃ A B, l = A ++ trim l ++ B ∧ A.all isWS = true ∧ B.all isWS = true := by
  refine ⟨l.takeWhile isWS, ((trimLeft l).reverse.takeWhile isWS).reverse, ?_, ?_, ?_⟩
  · conv_lhs => rw [← List.takeWhile_append_dropWhile (p := isWS) (l := l)]
    rw [List.append_assoc]
    congr 1
    exact trimRight_decomp (trimLeft l)
  · simp only [List.all_eq_true]
    intro c hc
    exact List.mem_takeWhile_imp hc
  · simp only [List.all_eq_true]
    intro c hc
    rw [List.mem_reverse] at hc
    exact List.mem_takeWhile_imp hc

theorem trim_head_not_ws (l : List Char) (c : Char) (cs : List Char)
    (h : trim l = c :: cs) : isWS c = false := by
  have hB := trimRight_decomp (trimLeft l)
  rw [show trimRight (trimLeft l) = trim l from rfl, h] at hB
  exact dropWhile_head_not isWS l c
    (cs ++ ((trimLeft l).reverse.takeWhile isWS).reverse) (by simpa [trimLeft] using hB)

theorem indexOfC_decomp (c : Char) (l : List Char) (j : Nat)
    (h : indexOfC c l = some j) :
    ∃ l1 l2, l = l1 ++ c :: l2 ∧ l1.length = j ∧ c ∉ l1 := by
  induction l generalizing j with
  | nil => simp [indexOfC] at h
  | cons x xs ih =>
    by_cases hx : x = c
    · rw [indexOfC, if_pos hx] at h
      injection h with h0
      exact ⟨[], xs, by rw [hx]; rfl, by rw [← h0]; rfl, by simp⟩
    · rw [indexOfC, if_neg hx] at h
      rcases hj : indexOfC c xs with _ | j'
      · rw [hj] at h; simp at h
      · rw [hj] at h
        simp only [Option.map_some'] at h
        injection h with h0
        obtain ⟨l1, l2, hl, hlen, hmem⟩ := ih j' hj
        refine ⟨x :: l1, l2, by rw [hl]; rfl, by simp [hlen, ← h0], ?_⟩
        simp only [List.mem_cons, not_or]
        exact ⟨fun hc => hx hc.symm, hmem⟩

theorem indexOfC_append_of_some (c : Char) (l1 l2 : List Char) (j : Nat)
    (h : indexOfC c l1 = some j) : indexOfC c (l1 ++ l2) = some j := by
  induction l1 generalizing j with
  | nil => simp [indexOfC] at h
  | cons x xs ih =>
    by_cases hx : x = c
    · rw [indexOfC, if_pos hx] at h
      rw [List.cons_append, indexOfC, if_pos hx]
      exact h
    · rw [indexOfC, if_neg hx] at h
      rcases hj : indexOfC c xs with _ | j'
      · rw [hj] at h; simp at h
      · rw [hj] at h
        rw [List.cons_append, indexOfC, if_neg hx, ih j' hj]
        exact h

theorem indexOfS_eq_of (needle hay : List Char) (k : Nat)
    (hmin : ∀ i, i < k → startsWithL needle (hay.drop i) = false)
    (hk : startsWithL needle (hay.drop k) = true) :
    indexOfS needle hay = some k := by
  induction hay generalizing k with
  | nil =>
    cases k with
    | zero =>
      simp only [List.drop_nil] at hk
      cases needle with
      | nil => simp [indexOfS]
      | cons n ns => simp [startsWithL] at hk
    | succ k' =>
      have h0 := hmin 0 (Nat.succ_pos k')
      simp only [List.drop_nil] at h0 hk
      rw [h0] at hk
      exact Bool.noConfusion hk
  | cons x xs ih =>
    cases k with
    | zero =>
      rw [indexOfS, if_pos (by simpa using hk)]
    | succ k' =>
      have h0 := hmin 0 (Nat.succ_pos k')
      simp only [List.drop_zero] at h0
      rw [indexOfS, if_neg (by simp [h0])]
      rw [ih k' (fun i hi => hmin (i + 1) (by omega)) (by simpa using hk)]
      rfl

theorem isValidKey_ne_nil (k : List Char) (h : isValidKey k = true) : k ≠ [] := by
  cases k with
  | nil => simp [isValidKey] at h
  | cons c cs => exact List.cons_ne_nil c cs

theorem isKeyStartChar_not_ws (c : Char) (h : isKeyStartChar c = true) :
    isWS c = false := by
  by_contra hws
  simp only [Bool.not_eq_false] at hws
  simp only [isWS, Bool.or_eq_true, decide_eq_true_eq] at hws
  rcases hws with ((((h1 | h1) | h1) | h1) | h1) | h1 <;> subst h1 <;>
    exact absurd h (by decide)

theorem isValidKey_head_start (c : Char) (cs : List Char)
    (h : isValidKey (c :: cs) = true) : isKeyStartChar c = true := by
  simp only [isValidKey, Bool.and_eq_true] at h
  exact h.1

theorem isValidKey_no_eq (k : List Char) (h : isValidKey k = true) :
    '=' ∉ k := by
  cases k with
  | nil => simp
  | cons c cs =>
    simp only [isValidKey, Bool.and_eq_true, List.all_eq_true] at h
    simp only [List.mem_cons, not_or]
    constructor
    · intro hc
      rw [← hc] at h
      exact absurd h.1 (by decide)
    · intro hc
      have := h.2 '=' hc
      exact absurd this (by decide)


theorem parse_positions (lineText : List Char) (eq : Nat)
    (heq : indexOfC '=' (trim lineText) = some eq)
    (hkey : isValidKey (trim ((trim lineText).take eq)) = true) :
    ∃ a : Nat,
      indexOfS (trim ((trim lineText).take eq)) lineText = some a ∧
      indexOfCFrom '=' a lineText = some (a + eq) ∧
      (trim ((trim lineText).take eq)).length ≤ eq ∧
      eq < (trim lineText).length ∧
      a + (trim lineText).length ≤ lineText.length := by
  obtain ⟨A, B, hsplit, hA, hB⟩ := trim_decomp lineText
  obtain ⟨t1, t2, ht, ht1len, ht1mem⟩ := indexOfC_decomp '=' (trim lineText) eq heq
  have htake : (trim lineText).take eq = t1 := by
    rw [ht, ← ht1len, List.take_left]
  rw [htake] at hkey ⊢
  obtain ⟨A2, W2, ht1d, hA2, hW2⟩ := trim_decomp t1
  have hA2nil : A2 = [] := by
    cases hA2c : A2 with
    | nil => rfl
    | cons a2 rest =>
      exfalso
      have htcons : trim lineText = a2 :: (rest ++ (trim t1 ++ (W2 ++ '=' :: t2))) := by
        rw [ht]
        conv_lhs => rw [ht1d, hA2c]
        simp [List.append_assoc]
      have hnws := trim_head_not_ws lineText a2 _ htcons
      rw [hA2c] at hA2
      simp only [List.all_cons, Bool.and_eq_true] at hA2
      rw [hA2.1] at hnws
      exact Bool.noConfusion hnws
  rw [hA2nil, List.nil_append] at ht1d
  -- now t1 = trim t1 ++ W2, i.e. t1 = key ++ W2
  have hkeyne : trim t1 ≠ [] := isValidKey_ne_nil _ hkey
  obtain ⟨k0, ks, hkcons⟩ : ∃ k0 ks, trim t1 = k0 :: ks := by
    cases hk : trim t1 with
    | nil => exact absurd hk hkeyne
    | cons k0 ks => exact ⟨k0, ks, rfl⟩
  have hk0 : isKeyStartChar k0 = true := by
    rw [hkcons] at hkey
    exact isValidKey_head_start k0 ks hkey
  have hk0ws : isWS k0 = false := isKeyStartChar_not_ws k0 hk0
  have hdropA : lineText.drop A.length = trim lineText ++ B := by
    conv_lhs => rw [hsplit, List.append_assoc, List.drop_left]
  refine ⟨A.length, ?_, ?_, ?_, ?_, ?_⟩
  · -- indexOfS
    apply indexOfS_eq_of
    · intro i hi
      have hdropi : lineText.drop i = A[i] :: (A.drop (i + 1) ++ (trim lineText ++ B)) := by
        conv_lhs => rw [hsplit, List.append_assoc]
        rw [List.drop_append_of_le_length (by omega), List.drop_eq_getElem_cons hi]
        rfl
      rw [hdropi, hkcons]
      have hAi : isWS A[i] = true := by
        simp only [List.all_eq_true] at hA
        exact hA A[i] (List.getElem_mem hi)
      have hne : ¬(k0 = A[i]) := by
        intro hcon
        rw [hcon, hAi] at hk0ws
        exact Bool.noConfusion hk0ws
      simp [startsWithL, hne]
    · have hdrop2 : lineText.drop A.length = trim t1 ++ (W2 ++ ('=' :: t2 ++ B)) := by
        rw [hdropA, ht]
        conv_lhs => rw [ht1d]
        simp [List.append_assoc]
      rw [hdrop2, startsWithL_iff]
      exact ⟨W2 ++ ('=' :: t2 ++ B), rfl⟩
  · -- indexOfCFrom
    rw [indexOfCFrom, hdropA, indexOfC_append_of_some '=' (trim lineText) B eq heq]
    simp [Nat.add_comm]
  · -- key length ≤ eq
    have hlen1 : t1.length = (trim t1).length + W2.length := by
      conv_lhs => rw [ht1d]
      rw [List.length_append]
    omega
  · -- eq < t.length
    have hlen2 := congrArg List.length ht
    simp only [List.length_append, List.length_cons] at hlen2
    omega
  · -- total length
    have hlen3 := congrArg List.length hsplit
    simp only [List.length_append] at hlen3
    omega

theorem parseLine_v3_invariant (lineText : List Char) (n : Nat) (v : EnvVariable)
    (hv : parseLine_v3 lineText n = some v) :
    v.keyStart < v.keyEnd ∧ v.keyEnd ≤ v.valueStart ∧ v.valueStart ≤ v.valueEnd ∧
    v.valueEnd ≤ lineText.length ∧ isValidKey v.key = true ∧ 0 < v.value.length := by
  simp only [parseLine_v3] at hv
  split at hv
  · exact Option.noConfusion hv
  · split at hv
    · exact Option.noConfusion hv
    · split at hv
      · exact Option.noConfusion hv
      · rename_i heqm eq heq
        split at hv
        · exact Option.noConfusion hv
        · split at hv
          · exact Option.noConfusion hv
          · rename_i hkg hvg
            split at hv
            · exact Option.noConfusion hv
            · rename_i hksm ks hks
              split at hv
              · exact Option.noConfusion hv
              · rename_i heom eo heo
                injection hv with hv
                subst hv
                simp at hkg
                obtain ⟨a, hS, hF, hkl, hel, htot⟩ :=
                  parse_positions lineText eq heq hkg
                rw [hks] at hS
                injection hS with hS
                subst hS
                rw [heo] at hF
                injection hF with hF
                subst hF
                have hkpos : 0 < (trim ((trim lineText).take eq)).length :=
                  List.length_pos.mpr (isValidKey_ne_nil _ hkg)
                have hvlen : ((trim lineText).drop (eq + 1)).length =
                    (trim lineText).length - (eq + 1) :=
                  List.length_drop (eq + 1) (trim lineText)
                refine ⟨?_, ?_, ?_, ?_, ?_, ?_⟩ <;> dsimp only <;>
                  first
                    | exact hkg
                    | omega

theorem parseLine_v2_invariant (lineText : List Char) (n : Nat) (v : EnvVariable)
    (hv : parseLine_v2 lineText n = some v) :
    v.keyStart < v.keyEnd ∧ v.keyEnd ≤ v.valueStart ∧ v.valueStart ≤ v.valueEnd ∧
    v.valueEnd ≤ lineText.length ∧ isValidKey v.key = true ∧ 0 < v.value.length := by
  simp only [parseLine_v2] at hv
  split at hv
  · exact Option.noConfusion hv
  · split at hv
    · exact Option.noConfusion hv
    · split at hv
      · exact Option.noConfusion hv
      · rename_i heqm eq heq
        split at hv
        · exact Option.noConfusion hv
        · split at hv
          · exact Option.noConfusion hv
          · rename_i hkg hvg
            split at hv
            · exact Option.noConfusion hv
            · rename_i hksm ks hks
              split at hv
              · exact Option.noConfusion hv
              · rename_i heom eo heo
                injection hv with hv
                subst hv
                simp at hkg
                obtain ⟨a, hS, hF, hkl, hel, htot⟩ :=
                  parse_positions lineText eq heq hkg
                rw [hks] at hS
                injection hS with hS
                subst hS
                rw [heo] at hF
                injection hF with hF
                subst hF
                have hkpos : 0 < (trim ((trim lineText).take eq)).length :=
                  List.length_pos.mpr (isValidKey_ne_nil _ hkg)
                have hvlen : ((trim lineText).drop (eq + 1)).length =
                    (trim lineText).length - (eq + 1) :=
                  List.length_drop (eq + 1) (trim lineText)
                refine ⟨?_, ?_, ?_, ?_, ?_, ?_⟩ <;> dsimp only <;>
                  first
                    | exact hkg
                    | omega

/-- C6: whenever either parser revision returns a declaration, its
offsets satisfy `0 ≤ keyStart < keyEnd ≤ valueStart ≤ valueEnd ≤` line
length, its key matches `^[A-Za-z_][A-Za-z0-9_]*$`, and its value is
non-empty. -/
theorem parseLine_offsets_invariant (lineText : List Char) (n : Nat)
    (v : EnvVariable)
    (hv : parseLine_v3 lineText n = some v ∨ parseLine_v2 lineText n = some v) :
    0 ≤ v.keyStart ∧ v.keyStart < v.keyEnd ∧ v.keyEnd ≤ v.valueStart ∧
    v.valueStart ≤ v.valueEnd ∧ v.valueEnd ≤ lineText.length ∧
    isValidKey v.key = true ∧ 0 < v.value.length := by
  rcases hv with hv | hv
  · obtain ⟨h1, h2, h3, h4, h5, h6⟩ := parseLine_v3_invariant lineText n v hv
    exact ⟨Nat.zero_le _, h1, h2, h3, h4, h5, h6⟩
  · obtain ⟨h1, h2, h3, h4, h5, h6⟩ := parseLine_v2_invariant lineText n v hv
    exact ⟨Nat.zero_le _, h1, h2, h3, h4, h5, h6⟩

/-- Witness for `parseLine_offsets_invariant` at the newer parser's
output on `"API_KEY=secret123"`. -/
theorem parseLine_offsets_invariant_witness :
    0 ≤ (⟨0, "API_KEY".toList, "secret123".toList, 0, 7, 8, 17⟩ : EnvVariable).keyStart ∧
    (⟨0, "API_KEY".toList, "secret123".toList, 0, 7, 8, 17⟩ : EnvVariable).keyStart <
      (⟨0, "API_KEY".toList, "secret123".toList, 0, 7, 8, 17⟩ : EnvVariable).keyEnd ∧
    (⟨0, "API_KEY".toList, "secret123".toList, 0, 7, 8, 17⟩ : EnvVariable).keyEnd ≤
      (⟨0, "API_KEY".toList, "secret123".toList, 0, 7, 8, 17⟩ : EnvVariable).valueStart ∧
    (⟨0, "API_KEY".toList, "secret123".toList, 0, 7, 8, 17⟩ : EnvVariable).valueStart ≤
      (⟨0, "API_KEY".toList, "secret123".toList, 0, 7, 8, 17⟩ : EnvVariable).valueEnd ∧
    (⟨0, "API_KEY".toList, "secret123".toList, 0, 7, 8, 17⟩ : EnvVariable).valueEnd ≤
      "API_KEY=secret123".toList.length ∧
    isValidKey (⟨0, "API_KEY".toList, "secret123".toList, 0, 7, 8, 17⟩ : EnvVariable).key = true ∧
    0 < (⟨0, "API_KEY".toList, "secret123".toList, 0, 7, 8, 17⟩ : EnvVariable).value.length :=
  parseLine_offsets_invariant "API_KEY=secret123".toList 0
    ⟨0, "API_KEY".toList, "secret123".toList, 0, 7, 8, 17⟩ (Or.inl (by decide))


end EnvBlur
